import Mathlib

/-!
# Web_C_Lang/src/hello.c

A shallow embedding of `add`, `factorial` and `main` from `hello.c`.

A C `int` is modelled as an `Int` in the signed 32-bit range; every
arithmetic operation of the source (`a + b`, `result *= i`, `++i`) is followed
by `wrap32`, the reduction into that range (the wraparound of the WebAssembly
target the file is compiled for).  The `for` loop of `factorial` is a
recursion on a fuel counter: one unit of fuel is spent per evaluation of the
loop condition `i <= n`, and `none` means the fuel ran out before the loop
exited.
-/

namespace Hello

/-! ## Data model -/

/-- The value `x` is representable as a C `int` (signed, 32 bits). -/
def isInt32 (x : Int) : Prop := -2147483648 ≤ x ∧ x ≤ 2147483647

instance (x : Int) : Decidable (isInt32 x) := by
  unfold isInt32; infer_instance

/-- Wraparound of an exact result into the signed 32-bit range. -/
def wrap32 (x : Int) : Int := (x + 2147483648) % 4294967296 - 2147483648

/-! ## Operations of `hello.c` -/

/-- The function `int add(int a, int b)`, whose body is `return a + b;`. -/
def add (a b : Int) : Int := wrap32 (a + b)

/-- The loop `for (int i = 2; i <= n; ++i) result *= i;` of `factorial`,
entered with the current values of `i` and `result`; it yields the value of
`result` at loop exit. -/
def factorialLoop : Nat → Int → Int → Int → Option Int
  | 0, _, _, _ => none
  | fuel + 1, n, i, result =>
    if i ≤ n then factorialLoop fuel n (wrap32 (i + 1)) (wrap32 (result * i))
    else some result

/-- The function `int factorial(int n)`: `return 0` when `n < 0`, otherwise
the loop entered with `i = 2` and `result = 1`. -/
def factorial (fuel : Nat) (n : Int) : Option Int :=
  if n < 0 then some 0 else factorialLoop fuel n 2 1

/-- The call `puts(s)`: appends the line `s` to standard output. -/
def puts (s : String) (out : List String) : List String := out ++ [s]

/-- The function `int main(void)`: the lines written to standard output and
the exit status. -/
def main : List String × Int :=
  let out := puts "Hello from C running inside your browser!" []
  let out := puts "Use the UI controls to call factorial() and add()." out
  (out, 0)

/-- The loop of `factorial` with a ghost flag next to `result`: the flag is
raised as soon as the exact product `result * i` of some executed
multiplication is not representable as an `int`. -/
def factorialLoopOv : Nat → Int → Int → Int → Bool → Option (Int × Bool)
  | 0, _, _, _, _ => none
  | fuel + 1, n, i, result, ov =>
    if i ≤ n then
      factorialLoopOv fuel n (wrap32 (i + 1)) (wrap32 (result * i))
        (ov || !decide (isInt32 (result * i)))
    else some (result, ov)

/-- The function `factorial` run on the flagged loop. -/
def factorialOv (fuel : Nat) (n : Int) : Option (Int × Bool) :=
  if n < 0 then some (0, false) else factorialLoopOv fuel n 2 1 false

/-! ## The statements of `hello.c` and the state they run in

To state what a call may read and write, the bodies of the three functions are
also given as syntax and run by an interpreter over the whole program state:
the locals of the call, the objects with static storage and standard
output. -/

/-- The parameters and local variables of the functions of `hello.c`. -/
inductive Var where
  | a
  | b
  | n
  | i
  | result
  deriving DecidableEq

/-- The program state that outlives a call: the objects with static storage,
by name, and the lines written to standard output. -/
structure World where
  globals : String → Int
  stdout : List String

/-- The state of a running call: its parameters and locals, the world, and the
value returned once a `return` was executed. -/
structure Frame where
  locals : Var → Int
  world : World
  ret : Option Int

/-- The expressions of `int` type: constants, parameters and locals, objects
with static storage, `+`, `*`, `<` and `<=`. -/
inductive CExpr where
  | lit (v : Int)
  | var (x : Var)
  | glob (g : String)
  | add (e₁ e₂ : CExpr)
  | mul (e₁ e₂ : CExpr)
  | lt (e₁ e₂ : CExpr)
  | le (e₁ e₂ : CExpr)

/-- The statements: assignment to a local (also a declaration with
initialiser), assignment to an object with static storage, `puts`, sequence,
`if`, loop and `return`. -/
inductive CStmt where
  | skip
  | assign (x : Var) (e : CExpr)
  | setGlob (g : String) (e : CExpr)
  | puts (s : String)
  | seq (s₁ s₂ : CStmt)
  | ite (c : CExpr) (s₁ s₂ : CStmt)
  | loop (c : CExpr) (body : CStmt)
  | ret (e : CExpr)

/-- The value of an expression; `+` and `*` wrap, a comparison is `1` or `0`. -/
def CExpr.eval (l : Var → Int) (w : World) : CExpr → Int
  | CExpr.lit v => v
  | CExpr.var x => l x
  | CExpr.glob g => w.globals g
  | CExpr.add e₁ e₂ => wrap32 (e₁.eval l w + e₂.eval l w)
  | CExpr.mul e₁ e₂ => wrap32 (e₁.eval l w * e₂.eval l w)
  | CExpr.lt e₁ e₂ => if e₁.eval l w < e₂.eval l w then 1 else 0
  | CExpr.le e₁ e₂ => if e₁.eval l w ≤ e₂.eval l w then 1 else 0

/-- A loop with condition `cond` and body `body`: one unit of fuel per test of
the condition; a `return` in the body leaves the loop. -/
def execLoop (cond : Frame → Bool) (body : Frame → Option Frame) :
    Nat → Frame → Option Frame
  | 0, _ => none
  | fuel + 1, σ =>
    if cond σ then
      match body σ with
      | none => none
      | some τ => if τ.ret.isSome then some τ else execLoop cond body fuel τ
    else some σ

/-- The execution of a statement; every loop may test its condition `fuel`
times, and `none` means that some loop ran out of fuel. -/
def CStmt.exec (fuel : Nat) : CStmt → Frame → Option Frame
  | CStmt.skip, σ => some σ
  | CStmt.assign x e, σ =>
    some ⟨fun y => if y = x then e.eval σ.locals σ.world else σ.locals y, σ.world, σ.ret⟩
  | CStmt.setGlob g e, σ =>
    some ⟨σ.locals,
      ⟨fun h => if h = g then e.eval σ.locals σ.world else σ.world.globals h,
        σ.world.stdout⟩, σ.ret⟩
  | CStmt.puts s, σ =>
    some ⟨σ.locals, ⟨σ.world.globals, Hello.puts s σ.world.stdout⟩, σ.ret⟩
  | CStmt.seq s₁ s₂, σ =>
    match s₁.exec fuel σ with
    | none => none
    | some τ => if τ.ret.isSome then some τ else s₂.exec fuel τ
  | CStmt.ite c s₁ s₂, σ =>
    if c.eval σ.locals σ.world ≠ 0 then s₁.exec fuel σ else s₂.exec fuel σ
  | CStmt.loop c body, σ =>
    execLoop (fun τ => decide (c.eval τ.locals τ.world ≠ 0)) (fun τ => body.exec fuel τ)
      fuel σ
  | CStmt.ret e, σ => some ⟨σ.locals, σ.world, some (e.eval σ.locals σ.world)⟩

/-- The body of `add`: `return a + b;`. -/
def addBody : CStmt :=
  CStmt.ret (CExpr.add (CExpr.var Var.a) (CExpr.var Var.b))

/-- The condition `i <= n` of the loop of `factorial`. -/
def factorialLoopCond : CExpr := CExpr.le (CExpr.var Var.i) (CExpr.var Var.n)

/-- The body of the loop of `factorial`, `result *= i;`, followed by the step
`++i` of the `for` statement. -/
def factorialLoopBody : CStmt :=
  CStmt.seq (CStmt.assign Var.result (CExpr.mul (CExpr.var Var.result) (CExpr.var Var.i)))
    (CStmt.assign Var.i (CExpr.add (CExpr.var Var.i) (CExpr.lit 1)))

/-- The body of `factorial`: the sign check, `int result = 1;`, the `for`
statement as `int i = 2;` followed by the loop, and `return result;`. -/
def factorialBody : CStmt :=
  CStmt.seq
    (CStmt.ite (CExpr.lt (CExpr.var Var.n) (CExpr.lit 0)) (CStmt.ret (CExpr.lit 0)) CStmt.skip)
    (CStmt.seq (CStmt.assign Var.result (CExpr.lit 1))
      (CStmt.seq (CStmt.assign Var.i (CExpr.lit 2))
        (CStmt.seq (CStmt.loop factorialLoopCond factorialLoopBody)
          (CStmt.ret (CExpr.var Var.result)))))

/-- The body of `main`: the two `puts` calls and `return 0;`. -/
def mainBody : CStmt :=
  CStmt.seq (CStmt.puts "Hello from C running inside your browser!")
    (CStmt.seq (CStmt.puts "Use the UI controls to call factorial() and add().")
      (CStmt.ret (CExpr.lit 0)))

/-- A call of a function with the given body: the locals start as `args`, and
the call yields the returned value and the world it leaves behind. -/
def callBody (fuel : Nat) (body : CStmt) (args : Var → Int) (w : World) :
    Option (Int × World) :=
  match body.exec fuel ⟨args, w, none⟩ with
  | some ⟨_, w', some v⟩ => some (v, w')
  | _ => none

/-- A call of one of the two exported functions by the host. -/
inductive Call where
  | add (a b : Int)
  | factorial (n : Int)
  deriving DecidableEq

/-- The body run by a call. -/
def Call.body : Call → CStmt
  | Call.add _ _ => addBody
  | Call.factorial _ => factorialBody

/-- The locals at the start of a call: the parameters hold the arguments (the
other locals are assigned before they are read; they start as `0`). -/
def Call.args : Call → Var → Int
  | Call.add a b => fun x => if x = Var.a then a else if x = Var.b then b else 0
  | Call.factorial n => fun x => if x = Var.n then n else 0

/-- The value returned to the host by a call made in the world `w`, and the
world after the call. -/
def Call.run (fuel : Nat) (c : Call) (w : World) : Option (Int × World) :=
  callBody fuel c.body c.args w

/-- A sequence of calls made by the host one after the other, each with its
own fuel, each in the world left by the one before: the values returned, in
order, and the final world. -/
def runCalls : List (Nat × Call) → World → Option (List Int × World)
  | [], w => some ([], w)
  | c :: cs, w =>
    match Call.run c.1 c.2 w with
    | none => none
    | some (v, w') =>
      match runCalls cs w' with
      | none => none
      | some (vs, w'') => some (v :: vs, w'')

/-- The expression reads no object with static storage. -/
def CExpr.isLocal : CExpr → Bool
  | CExpr.lit _ => true
  | CExpr.var _ => true
  | CExpr.glob _ => false
  | CExpr.add e₁ e₂ => e₁.isLocal && e₂.isLocal
  | CExpr.mul e₁ e₂ => e₁.isLocal && e₂.isLocal
  | CExpr.lt e₁ e₂ => e₁.isLocal && e₂.isLocal
  | CExpr.le e₁ e₂ => e₁.isLocal && e₂.isLocal

/-- The statement reads and writes nothing but parameters and locals: no
object with static storage is read or assigned and nothing is written to
standard output. -/
def CStmt.isLocal : CStmt → Bool
  | CStmt.skip => true
  | CStmt.assign _ e => e.isLocal
  | CStmt.setGlob _ _ => false
  | CStmt.puts _ => false
  | CStmt.seq s₁ s₂ => s₁.isLocal && s₂.isLocal
  | CStmt.ite c s₁ s₂ => c.isLocal && s₁.isLocal && s₂.isLocal
  | CStmt.loop c body => c.isLocal && body.isLocal
  | CStmt.ret e => e.isLocal

/-- The frame `σ` moved into the world `w`: same locals, same returned value. -/
def Frame.inWorld (w : World) (σ : Frame) : Frame := ⟨σ.locals, w, σ.ret⟩

/-! ## Reference definitions, following the specification's wording -/

/-- An unsigned 32-bit pattern read as a two's-complement signed integer. -/
def twosComplement (u : Int) : Int := if u < 2147483648 then u else u - 4294967296

/-- The mathematical sum reduced modulo `2^32` and read as two's complement. -/
def wrappedSum (a b : Int) : Int := twosComplement ((a + b) % 4294967296)

/-- The step of the accumulation: one multiplication followed by wraparound. -/
def mulWrap (acc : Int) (k : Nat) : Int := wrap32 (acc * (k : Int))

/-- The product of the integers `2, 3, ..., n`, accumulated from `1` with
wraparound after each multiplication (the empty product `1` when `n < 2`). -/
def wrappedProduct (n : Int) : Int :=
  (List.range' 2 (n.toNat - 1)).foldl mulWrap 1

/-! ## Basic facts about `wrap32` -/

theorem wrap32_isInt32 (x : Int) : isInt32 (wrap32 x) := by
  unfold isInt32 wrap32; omega

theorem wrap32_of_isInt32 {x : Int} (h : isInt32 x) : wrap32 x = x := by
  unfold isInt32 at h; unfold wrap32; omega

theorem wrap32_eq_twosComplement (x : Int) :
    wrap32 x = twosComplement (x % 4294967296) := by
  unfold wrap32 twosComplement; split <;> omega

theorem wrap32_sub_mul (z t : Int) : wrap32 (z - 4294967296 * t) = wrap32 z := by
  unfold wrap32; omega

theorem wrap32_wrap32_mul (x y : Int) : wrap32 (wrap32 x * y) = wrap32 (x * y) := by
  obtain ⟨q, hq⟩ : ∃ q, wrap32 x = x - 4294967296 * q :=
    ⟨(x + 2147483648) / 4294967296, by unfold wrap32; omega⟩
  have he : wrap32 x * y = x * y - 4294967296 * (q * y) := by
    rw [hq]; ring
  rw [he, wrap32_sub_mul]

/-! ## `add` -/

/-- C1: for all signed 32-bit `a` and `b`, `add a b` is the mathematical sum
`a + b` reduced modulo `2^32` and read as two's complement; the result is again
a signed 32-bit integer (`add` is a total function, it has no failure value),
and it differs from the exact sum by at most one multiple of `2^32`. -/
theorem add_eq_wrappedSum (a b : Int) (ha : isInt32 a) (hb : isInt32 b) :
    add a b = wrappedSum a b ∧ isInt32 (add a b) ∧
      (add a b = a + b ∨ add a b = a + b - 4294967296 ∨
        add a b = a + b + 4294967296) := by
  refine ⟨wrap32_eq_twosComplement (a + b), wrap32_isInt32 (a + b), ?_⟩
  unfold isInt32 at ha hb
  unfold add wrap32
  omega

theorem add_eq_wrappedSum_witness :
    add 2147483647 1 = wrappedSum 2147483647 1 ∧ isInt32 (add 2147483647 1) ∧
      (add 2147483647 1 = 2147483647 + 1 ∨
        add 2147483647 1 = 2147483647 + 1 - 4294967296 ∨
        add 2147483647 1 = 2147483647 + 1 + 4294967296) :=
  add_eq_wrappedSum 2147483647 1 (by decide) (by decide)

/-- C6: the sample values of `add`: `add(2, 3) = 5` and `add(-7, 7) = 0`. -/
theorem add_samples : add 2 3 = 5 ∧ add (-7) 7 = 0 := by
  constructor <;> decide

/-! ## The loop of `factorial` -/

theorem factorialLoop_fuel_add {fuel : Nat} {n i r v : Int}
    (h : factorialLoop fuel n i r = some v) (k : Nat) :
    factorialLoop (fuel + k) n i r = some v := by
  induction fuel generalizing i r with
  | zero => simp [factorialLoop] at h
  | succ f ih =>
    rw [Nat.add_right_comm]
    unfold factorialLoop at h ⊢
    split
    · rename_i hle
      rw [if_pos hle] at h
      exact ih h
    · rename_i hle
      rw [if_neg hle] at h
      exact h

theorem factorialLoop_fuel_le {fuel fuel' : Nat} {n i r v : Int}
    (h : factorialLoop fuel n i r = some v) (hle : fuel ≤ fuel') :
    factorialLoop fuel' n i r = some v := by
  obtain ⟨k, rfl⟩ := Nat.exists_eq_add_of_le hle
  exact factorialLoop_fuel_add h k

theorem factorialLoop_unique {fuel fuel' : Nat} {n i r v v' : Int}
    (h : factorialLoop fuel n i r = some v)
    (h' : factorialLoop fuel' n i r = some v') : v = v' := by
  have h1 := factorialLoop_fuel_le h (Nat.le_max_left fuel fuel')
  have h2 := factorialLoop_fuel_le h' (Nat.le_max_right fuel fuel')
  rw [h1] at h2
  exact Option.some.inj h2

theorem factorial_fuel_le {fuel fuel' : Nat} {n v : Int}
    (h : factorial fuel n = some v) (hle : fuel ≤ fuel') :
    factorial fuel' n = some v := by
  unfold factorial at h ⊢
  split
  · rename_i hn
    rw [if_pos hn] at h
    exact h
  · rename_i hn
    rw [if_neg hn] at h
    exact factorialLoop_fuel_le h hle

theorem factorial_unique {fuel fuel' : Nat} {n v v' : Int}
    (h : factorial fuel n = some v) (h' : factorial fuel' n = some v') : v = v' := by
  have h1 := factorial_fuel_le h (Nat.le_max_left fuel fuel')
  have h2 := factorial_fuel_le h' (Nat.le_max_right fuel fuel')
  rw [h1] at h2
  exact Option.some.inj h2

/-- With `n = INT_MAX` the condition `i <= n` holds for every value of `i`, so
the loop never exits: no amount of fuel yields a result. -/
theorem factorialLoop_INT_MAX (fuel : Nat) (i r : Int) (hi : i ≤ 2147483647) :
    factorialLoop fuel 2147483647 i r = none := by
  induction fuel generalizing i r with
  | zero => rfl
  | succ f ih =>
    unfold factorialLoop
    rw [if_pos hi]
    exact ih _ _ (wrap32_isInt32 (i + 1)).2

/-- Below `INT_MAX` the counter never wraps: entered at `i` with `k` values
`i, ..., n` left to multiply, the loop exits after `k + 1` tests with the
accumulated wrapped product. -/
theorem factorialLoop_eq_foldl (n : Int) (hn : n < 2147483647) (k : Nat) :
    ∀ (i : Nat) (r : Int) (fuel : Nat), (i : Int) + k = n + 1 → k < fuel →
      factorialLoop fuel n i r = some ((List.range' i k).foldl mulWrap r) := by
  induction k with
  | zero =>
    intro i r fuel hik hf
    obtain ⟨f, rfl⟩ := Nat.exists_eq_succ_of_ne_zero (Nat.pos_iff_ne_zero.mp hf)
    unfold factorialLoop
    rw [if_neg (by omega)]
    rfl
  | succ k ih =>
    intro i r fuel hik hf
    obtain ⟨f, rfl⟩ := Nat.exists_eq_succ_of_ne_zero (Nat.not_eq_zero_of_lt hf)
    unfold factorialLoop
    rw [if_pos (by omega)]
    have hw : wrap32 ((i : Int) + 1) = ((i + 1 : Nat) : Int) := by
      rw [wrap32_of_isInt32 (by unfold isInt32; omega)]
      push_cast; rfl
    rw [hw, ih (i + 1) _ f (by push_cast; omega) (by omega)]
    rfl

/-- For `0 <= n < INT_MAX`, `factorial` returns the wrapped product of
`2, ..., n` as soon as the fuel exceeds `n`. -/
theorem factorial_eq_wrappedProduct (n : Int) (h0 : 0 ≤ n) (hn : n < 2147483647)
    (fuel : Nat) (hf : n < (fuel : Int)) :
    factorial fuel n = some (wrappedProduct n) := by
  unfold factorial wrappedProduct
  rw [if_neg (by omega)]
  by_cases h2 : n < 2
  · obtain ⟨f, rfl⟩ : ∃ f, fuel = f + 1 := ⟨fuel - 1, by omega⟩
    have hz : n.toNat - 1 = 0 := by omega
    unfold factorialLoop
    rw [if_neg (by omega), hz]
    rfl
  · have := factorialLoop_eq_foldl n hn (n.toNat - 1) 2 1 fuel (by omega) (by omega)
    simpa using this

/-- Every `int` below `INT_MAX` makes `factorial` return, with an `int`. -/
theorem factorial_terminates (n : Int) (hn : n < 2147483647) :
    ∃ v, isInt32 v ∧ ∀ fuel : Nat, n < (fuel : Int) →
      factorial fuel n = some v := by
  by_cases h0 : 0 ≤ n
  · refine ⟨wrappedProduct n, ?_, fun fuel hf => factorial_eq_wrappedProduct n h0 hn fuel hf⟩
    unfold wrappedProduct
    generalize List.range' 2 (n.toNat - 1) = l
    induction l using List.reverseRecOn with
    | nil => decide
    | append_singleton l a _ =>
      rw [List.foldl_append]
      exact wrap32_isInt32 _
  · refine ⟨0, by decide, fun fuel _ => ?_⟩
    unfold factorial
    rw [if_pos (by omega)]

/-! ## `factorial`: the settled claims on its control flow -/

/-- C2: for every `n < 0` (in particular every negative signed 32-bit `n`),
`factorial n` returns the value `0`, whatever the fuel: the loop is not
entered and the result is a value, not a failure. -/
theorem factorial_neg (n : Int) (fuel : Nat) (hn : n < 0) :
    factorial fuel n = some 0 := by
  unfold factorial
  rw [if_pos hn]

theorem factorial_neg_witness : factorial 0 (-2147483648) = some 0 :=
  factorial_neg (-2147483648) 0 (by decide)

/-- C3, at the input `n = INT_MAX = 2147483647`: `factorial` does not return
the wrapped product of `2, ..., n`, with any amount of fuel, because it does
not return at all. -/
theorem factorial_INT_MAX_no_product :
    isInt32 2147483647 ∧ (0 : Int) ≤ 2147483647 ∧
      ¬ ∃ fuel : Nat, factorial fuel 2147483647 = some (wrappedProduct 2147483647) := by
  refine ⟨by decide, by decide, ?_⟩
  rintro ⟨fuel, h⟩
  unfold factorial at h
  rw [if_neg (by decide), factorialLoop_INT_MAX fuel 2 1 (by decide)] at h
  exact Option.noConfusion h

/-- C4, at the input `n = INT_MAX = 2147483647`: with a wrapping counter the
condition `i <= n` is never false, so `factorial` yields no result for any
amount of fuel: the loop does not exit. -/
theorem factorial_INT_MAX_diverges :
    isInt32 2147483647 ∧ ∀ fuel : Nat, factorial fuel 2147483647 = none := by
  refine ⟨by decide, fun fuel => ?_⟩
  unfold factorial
  rw [if_neg (by decide)]
  exact factorialLoop_INT_MAX fuel 2 1 (by decide)

/-- C5: the sample values of `factorial`: `factorial(0) = 1`,
`factorial(1) = 1`, `factorial(5) = 120` and `factorial(10) = 3628800`, each
returned as soon as the fuel covers the loop tests of that run. -/
theorem factorial_samples (fuel : Nat) :
    (1 ≤ fuel → factorial fuel 0 = some 1) ∧
    (1 ≤ fuel → factorial fuel 1 = some 1) ∧
    (5 ≤ fuel → factorial fuel 5 = some 120) ∧
    (10 ≤ fuel → factorial fuel 10 = some 3628800) := by
  refine ⟨fun h => ?_, fun h => ?_, fun h => ?_, fun h => ?_⟩
  · exact factorial_fuel_le (show factorial 1 0 = some 1 by decide) h
  · exact factorial_fuel_le (show factorial 1 1 = some 1 by decide) h
  · exact factorial_fuel_le (show factorial 5 5 = some 120 by decide) h
  · exact factorial_fuel_le (show factorial 10 10 = some 3628800 by decide) h

theorem factorial_samples_witness :
    factorial 10 0 = some 1 ∧ factorial 10 1 = some 1 ∧
      factorial 10 5 = some 120 ∧ factorial 10 10 = some 3628800 :=
  ⟨(factorial_samples 10).1 (by decide), (factorial_samples 10).2.1 (by decide),
    (factorial_samples 10).2.2.1 (by decide), (factorial_samples 10).2.2.2 (by decide)⟩

/-! ## `main` -/

/-- C7: `main` writes exactly two lines to standard output, the greeting and
then the usage hint, and returns the exit status `0`. -/
theorem main_output :
    main = (["Hello from C running inside your browser!",
      "Use the UI controls to call factorial() and add()."], 0) ∧
    main.1.length = 2 ∧ main.2 = 0 := by
  refine ⟨rfl, rfl, rfl⟩

/-! ## `factorial` against the mathematical factorial -/

theorem foldl_mulWrap_factorial (k : Nat) :
    ∀ i : Nat, (List.range' (i + 1) k).foldl mulWrap (wrap32 (Nat.factorial i : Int)) =
      wrap32 (Nat.factorial (i + k) : Int) := by
  induction k with
  | zero =>
    intro i
    rw [List.range'_zero, List.foldl_nil, Nat.add_zero]
  | succ k ih =>
    intro i
    have hstep : mulWrap (wrap32 (Nat.factorial i : Int)) (i + 1) =
        wrap32 (Nat.factorial (i + 1) : Int) := by
      unfold mulWrap
      rw [wrap32_wrap32_mul, Nat.factorial_succ]
      push_cast
      rw [mul_comm]
    have e : i + 1 + k = i + (k + 1) := by omega
    rw [List.range'_succ, List.foldl_cons, hstep, ih (i + 1), e]

theorem wrappedProduct_eq_factorial (n : Int) (h0 : 0 ≤ n) :
    wrappedProduct n = wrap32 (Nat.factorial n.toNat : Int) := by
  unfold wrappedProduct
  by_cases h2 : n < 2
  · have hz : n.toNat - 1 = 0 := by omega
    rw [hz]
    have hc : n.toNat = 0 ∨ n.toNat = 1 := by omega
    rcases hc with hc | hc <;> rw [hc] <;> decide
  · have h := foldl_mulWrap_factorial (n.toNat - 1) 1
    have he : 1 + (n.toNat - 1) = n.toNat := by omega
    have h1 : wrap32 (Nat.factorial 1 : Int) = 1 := by decide
    rw [he, h1] at h
    exact h

/-- C9: for every signed 32-bit `n` with `0 <= n < 2^31 - 1`, `factorial n`
returns (as soon as the fuel exceeds `n`) the exact factorial `n!` reduced
once modulo `2^32` and read as a two's-complement signed 32-bit integer. -/
theorem factorial_eq_factorial_mod (n : Int) (h0 : 0 ≤ n) (hn : n < 2147483647)
    (fuel : Nat) (hf : n < (fuel : Int)) :
    factorial fuel n =
      some (twosComplement ((Nat.factorial n.toNat : Int) % 4294967296)) := by
  rw [factorial_eq_wrappedProduct n h0 hn fuel hf, wrappedProduct_eq_factorial n h0,
    wrap32_eq_twosComplement]

theorem factorial_eq_factorial_mod_witness :
    factorial 14 13 =
      some (twosComplement ((Nat.factorial (13 : Int).toNat : Int) % 4294967296)) :=
  factorial_eq_factorial_mod 13 (by decide) (by decide) 14 (by decide)

/-! ## Overflow-free range of `factorial` -/

/-- Dropping the ghost flag of the flagged loop gives the loop of the source. -/
theorem factorialLoopOv_fst (fuel : Nat) (n : Int) :
    ∀ (i r : Int) (ov : Bool),
      (factorialLoopOv fuel n i r ov).map Prod.fst = factorialLoop fuel n i r := by
  induction fuel with
  | zero => intro i r ov; rfl
  | succ f ih =>
    intro i r ov
    unfold factorialLoopOv factorialLoop
    split
    · exact ih _ _ _
    · rfl

theorem factorialOv_fst (fuel : Nat) (n : Int) :
    (factorialOv fuel n).map Prod.fst = factorial fuel n := by
  unfold factorialOv factorial
  split
  · rfl
  · exact factorialLoopOv_fst fuel n 2 1 false

theorem factorialLoopOv_fuel_add {fuel : Nat} {n i r : Int} {ov : Bool} {v : Int × Bool}
    (h : factorialLoopOv fuel n i r ov = some v) (k : Nat) :
    factorialLoopOv (fuel + k) n i r ov = some v := by
  induction fuel generalizing i r ov with
  | zero => simp [factorialLoopOv] at h
  | succ f ih =>
    rw [Nat.add_right_comm]
    unfold factorialLoopOv at h ⊢
    split
    · rename_i hle
      rw [if_pos hle] at h
      exact ih h
    · rename_i hle
      rw [if_neg hle] at h
      exact h

theorem factorialOv_fuel_le {fuel fuel' : Nat} {n : Int} {v : Int × Bool}
    (h : factorialOv fuel n = some v) (hle : fuel ≤ fuel') :
    factorialOv fuel' n = some v := by
  obtain ⟨k, rfl⟩ := Nat.exists_eq_add_of_le hle
  unfold factorialOv at h ⊢
  split
  · rename_i hn
    rw [if_pos hn] at h
    exact h
  · rename_i hn
    rw [if_neg hn] at h
    exact factorialLoopOv_fuel_add h k

/-- The value returned by the loop is an `int` when the entry value is. -/
theorem factorialLoop_isInt32 {fuel : Nat} {n i r v : Int}
    (h : factorialLoop fuel n i r = some v) (hr : isInt32 r) : isInt32 v := by
  induction fuel generalizing i r with
  | zero => simp [factorialLoop] at h
  | succ f ih =>
    unfold factorialLoop at h
    split at h
    · exact ih h (wrap32_isInt32 _)
    · rw [← Option.some.inj h]
      exact hr

theorem factorial_isInt32 {fuel : Nat} {n v : Int}
    (h : factorial fuel n = some v) : isInt32 v := by
  unfold factorial at h
  split at h
  · rw [← Option.some.inj h]
    decide
  · exact factorialLoop_isInt32 h (by decide)

/-- C10: for `0 <= n <= 12` no multiplication of `factorial n` leaves the
signed 32-bit range (the ghost flag stays down) and the value returned is the
exact `n!`, with `12! = 479001600`; `factorial 13` returns the wrapped value
`1932053504`, after an overflowing multiplication, which is not
`13! = 6227020800`; and for no `n > 12` does `factorial` return `n!`. -/
theorem factorial_exact_iff_le_12 :
    (∀ (n : Int) (fuel : Nat), 0 ≤ n → n ≤ 12 → n < (fuel : Int) →
      factorialOv fuel n = some ((Nat.factorial n.toNat : Int), false) ∧
      factorial fuel n = some (Nat.factorial n.toNat : Int)) ∧
    (∀ fuel : Nat, 12 ≤ fuel → factorial fuel 12 = some 479001600) ∧
    (∀ fuel : Nat, 13 ≤ fuel → factorial fuel 13 = some 1932053504 ∧
      factorialOv fuel 13 = some (1932053504, true)) ∧
    Nat.factorial 13 = 6227020800 ∧
    (1932053504 : Int) ≠ (Nat.factorial 13 : Int) ∧
    (∀ (n : Int) (fuel : Nat) (v : Int), 12 < n → factorial fuel n = some v →
      v ≠ (Nat.factorial n.toNat : Int)) := by
  refine ⟨?_, ?_, ?_, by decide, by decide, ?_⟩
  · intro n fuel h0 h12 hf
    have key : factorialOv fuel n = some ((Nat.factorial n.toNat : Int), false) := by
      have hfuel : n.toNat + 1 ≤ fuel := by omega
      refine factorialOv_fuel_le ?_ hfuel
      interval_cases n <;> decide
    refine ⟨key, ?_⟩
    rw [← factorialOv_fst, key]
    rfl
  · intro fuel hf
    exact factorial_fuel_le (show factorial 12 12 = some 479001600 by decide) hf
  · intro fuel hf
    exact ⟨factorial_fuel_le (show factorial 13 13 = some 1932053504 by decide) hf,
      factorialOv_fuel_le (show factorialOv 13 13 = some (1932053504, true) by decide) hf⟩
  · intro n fuel v hn h hv
    have hr := (factorial_isInt32 h).2
    have h13 : 13 ≤ n.toNat := by omega
    have hle : Nat.factorial 13 ≤ Nat.factorial n.toNat := Nat.factorial_le h13
    have h13v : Nat.factorial 13 = 6227020800 := by decide
    rw [hv] at hr
    omega

theorem factorial_exact_iff_le_12_witness :
    (factorialOv 13 12 = some ((Nat.factorial (12 : Int).toNat : Int), false) ∧
      factorial 13 12 = some (Nat.factorial (12 : Int).toNat : Int)) ∧
    factorial 12 12 = some 479001600 ∧
    (factorial 13 13 = some 1932053504 ∧ factorialOv 13 13 = some (1932053504, true)) ∧
    (1932053504 : Int) ≠ (Nat.factorial (13 : Int).toNat : Int) :=
  ⟨factorial_exact_iff_le_12.1 12 13 (by decide) (by decide) (by decide),
    factorial_exact_iff_le_12.2.1 12 (by decide),
    factorial_exact_iff_le_12.2.2.1 13 (by decide),
    factorial_exact_iff_le_12.2.2.2.2.2 13 13 1932053504 (by decide) (by decide)⟩

/-! ## Zero results of `factorial` -/

theorem wrap32_eq_zero_of_dvd {x : Int} (h : (4294967296 : Int) ∣ x) : wrap32 x = 0 := by
  obtain ⟨t, rfl⟩ := h
  unfold wrap32; omega

theorem wrap32_ne_zero_of_not_dvd {x : Int} (h : ¬ (4294967296 : Int) ∣ x) :
    wrap32 x ≠ 0 := by
  intro hz
  apply h
  unfold wrap32 at hz
  omega

theorem two_pow_32_dvd_factorial {m : Nat} (hm : 34 ≤ m) :
    (4294967296 : Int) ∣ (Nat.factorial m : Int) := by
  have h34 : 4294967296 ∣ Nat.factorial 34 := by decide
  have hdvd : 4294967296 ∣ Nat.factorial m :=
    Nat.dvd_trans h34 (Nat.factorial_dvd_factorial hm)
  exact_mod_cast hdvd

theorem two_pow_32_not_dvd_factorial {m : Nat} (hm : m ≤ 33) :
    ¬ (4294967296 : Int) ∣ (Nat.factorial m : Int) := by
  have h : ¬ 4294967296 ∣ Nat.factorial m := by
    interval_cases m <;> decide
  intro hd
  apply h
  exact_mod_cast hd

/-- C11: the value `0` is returned not only for negative arguments:
`factorial n` returns a non-zero value for every `0 <= n <= 33` and returns
`0` for every `34 <= n < 2^31 - 1` (`34!` is the first factorial divisible by
`2^32`), so the result for `n = 34` is the one returned for `n = -1`. -/
theorem factorial_eq_zero_iff_ge_34 :
    (∀ (n : Int) (fuel : Nat), 0 ≤ n → n ≤ 33 → n < (fuel : Int) →
      ∃ v, factorial fuel n = some v ∧ v ≠ 0) ∧
    (∀ (n : Int) (fuel : Nat), 34 ≤ n → n < 2147483647 → n < (fuel : Int) →
      factorial fuel n = some 0) ∧
    (4294967296 ∣ Nat.factorial 34 ∧ ∀ m : Nat, m < 34 → ¬ 4294967296 ∣ Nat.factorial m) ∧
    (∀ fuel : Nat, 34 < fuel → factorial fuel 34 = factorial fuel (-1)) := by
  have hzero : ∀ (n : Int) (fuel : Nat), 34 ≤ n → n < 2147483647 → n < (fuel : Int) →
      factorial fuel n = some 0 := by
    intro n fuel h34 hn hf
    rw [factorial_eq_wrappedProduct n (by omega) hn fuel hf,
      wrappedProduct_eq_factorial n (by omega),
      wrap32_eq_zero_of_dvd (two_pow_32_dvd_factorial (by omega))]
  refine ⟨?_, hzero, ⟨by decide, ?_⟩, ?_⟩
  · intro n fuel h0 h33 hf
    refine ⟨wrap32 (Nat.factorial n.toNat : Int), ?_, ?_⟩
    · rw [factorial_eq_wrappedProduct n h0 (by omega) fuel hf,
        wrappedProduct_eq_factorial n h0]
    · exact wrap32_ne_zero_of_not_dvd (two_pow_32_not_dvd_factorial (by omega))
  · intro m hm
    interval_cases m <;> decide
  · intro fuel hf
    rw [hzero 34 fuel (by decide) (by decide) (by exact_mod_cast hf)]
    rfl

theorem factorial_eq_zero_iff_ge_34_witness :
    (∃ v, factorial 34 33 = some v ∧ v ≠ 0) ∧ factorial 35 34 = some 0 ∧
      ¬ 4294967296 ∣ Nat.factorial 33 ∧ factorial 35 34 = factorial 35 (-1) :=
  ⟨factorial_eq_zero_iff_ge_34.1 33 34 (by decide) (by decide) (by decide),
    factorial_eq_zero_iff_ge_34.2.1 34 35 (by decide) (by decide) (by decide),
    factorial_eq_zero_iff_ge_34.2.2.1.2 33 (by decide),
    factorial_eq_zero_iff_ge_34.2.2.2 35 (by decide)⟩

/-! ## The recurrence of `factorial` -/

/-- C12: for every signed 32-bit `n` with `1 <= n < 2^31 - 1`, `factorial n`
returns the value returned by `factorial (n - 1)` multiplied by `n` and wrapped
to signed 32 bits. -/
theorem factorial_recurrence (n : Int) (h1 : 1 ≤ n) (hn : n < 2147483647)
    (fuel fuel' : Nat) (hf : n < (fuel : Int)) (hf' : n - 1 < (fuel' : Int)) :
    ∃ v, factorial fuel' (n - 1) = some v ∧ factorial fuel n = some (wrap32 (v * n)) := by
  refine ⟨wrappedProduct (n - 1),
    factorial_eq_wrappedProduct (n - 1) (by omega) (by omega) fuel' hf', ?_⟩
  rw [factorial_eq_wrappedProduct n (by omega) hn fuel hf,
    wrappedProduct_eq_factorial n (by omega),
    wrappedProduct_eq_factorial (n - 1) (by omega), wrap32_wrap32_mul]
  obtain ⟨m, hm⟩ : ∃ m : Nat, n = (m : Int) + 1 := ⟨(n - 1).toNat, by omega⟩
  have e1 : n.toNat = m + 1 := by omega
  have e2 : (n - 1).toNat = m := by omega
  rw [e1, e2, Nat.factorial_succ, hm]
  push_cast
  rw [mul_comm]

theorem factorial_recurrence_witness :
    ∃ v, factorial 13 (13 - 1) = some v ∧ factorial 14 13 = some (wrap32 (v * 13)) :=
  factorial_recurrence 13 (by decide) (by decide) 14 13 (by decide) (by decide)

/-! ## Associativity of `add` -/

/-- C13: for all signed 32-bit `a`, `b` and `c`,
`add (add a b) c = add a (add b c)`, also when an intermediate sum wraps; both
are the exact sum `a + b + c` wrapped once, which differs from it by at most one
multiple of `2^32`. -/
theorem add_assoc_wrap (a b c : Int) (ha : isInt32 a) (hb : isInt32 b) (hc : isInt32 c) :
    add (add a b) c = add a (add b c) ∧ add (add a b) c = wrap32 (a + b + c) ∧
      (add (add a b) c = a + b + c ∨ add (add a b) c = a + b + c - 4294967296 ∨
        add (add a b) c = a + b + c + 4294967296) := by
  unfold isInt32 at ha hb hc
  unfold add wrap32
  refine ⟨?_, ?_, ?_⟩ <;> omega

theorem add_assoc_wrap_witness :
    add (add 2147483647 1) (-1) = add 2147483647 (add 1 (-1)) ∧
      add (add 2147483647 1) (-1) = wrap32 (2147483647 + 1 + -1) ∧
      (add (add 2147483647 1) (-1) = 2147483647 + 1 + -1 ∨
        add (add 2147483647 1) (-1) = 2147483647 + 1 + -1 - 4294967296 ∨
        add (add 2147483647 1) (-1) = 2147483647 + 1 + -1 + 4294967296) :=
  add_assoc_wrap 2147483647 1 (-1) (by decide) (by decide) (by decide)

/-! ## Calls in the program state -/

theorem run_add (fuel : Nat) (w : World) (a b : Int) :
    Call.run fuel (Call.add a b) w = some (add a b, w) := by
  rfl

theorem factorialLoopCond_eval (σ : Frame) :
    decide (factorialLoopCond.eval σ.locals σ.world ≠ 0) =
      decide (σ.locals Var.i ≤ σ.locals Var.n) := by
  by_cases h : σ.locals Var.i ≤ σ.locals Var.n <;>
    simp [factorialLoopCond, CExpr.eval, h]

theorem factorialLoopBody_exec (fuel : Nat) (l : Var → Int) (w : World) :
    factorialLoopBody.exec fuel ⟨l, w, none⟩ =
      some ⟨fun y => if y = Var.i then wrap32 (l Var.i + 1)
        else if y = Var.result then wrap32 (l Var.result * l Var.i) else l y, w, none⟩ := by
  rfl

/-- The loop of `factorialBody`, run from a frame in which no `return` was
executed, is the loop `factorialLoop` on the values of `n`, `i` and `result`;
it leaves the world as it was. -/
theorem execLoop_factorialBody (fuel₀ : Nat) (fuel : Nat) :
    ∀ (l : Var → Int) (w : World),
      (execLoop (fun τ => decide (factorialLoopCond.eval τ.locals τ.world ≠ 0))
        (fun τ => factorialLoopBody.exec fuel₀ τ) fuel ⟨l, w, none⟩).map
          (fun τ => (τ.locals Var.result, τ.world, τ.ret)) =
      (factorialLoop fuel (l Var.n) (l Var.i) (l Var.result)).map
        (fun v => (v, w, none)) := by
  induction fuel with
  | zero => intro l w; rfl
  | succ f ih =>
    intro l w
    unfold execLoop factorialLoop
    rw [factorialLoopCond_eval, factorialLoopBody_exec]
    by_cases h : l Var.i ≤ l Var.n
    · simp only [h, decide_True, if_true, Option.isSome_none, Bool.false_eq_true, if_false]
      exact ih _ w
    · simp only [h, decide_False, Bool.false_eq_true, if_false, Option.map_some']


/-- The frame in which the loop of `factorialBody` is entered by a call with
argument `n`. -/
theorem factorialBody_exec_nonneg (fuel : Nat) (w : World) (n : Int) (hn : ¬ n < 0) :
    factorialBody.exec fuel ⟨(Call.factorial n).args, w, none⟩ =
      match execLoop (fun τ => decide (factorialLoopCond.eval τ.locals τ.world ≠ 0))
          (fun τ => factorialLoopBody.exec fuel τ) fuel
          ⟨fun y => if y = Var.i then 2 else if y = Var.result then 1
            else (Call.factorial n).args y, w, none⟩ with
      | none => none
      | some τ => if τ.ret.isSome then some τ
        else some ⟨τ.locals, τ.world, some (τ.locals Var.result)⟩ := by
  have h0 : (CExpr.lt (CExpr.var Var.n) (CExpr.lit 0)).eval (Call.factorial n).args w = 0 := by
    simp [CExpr.eval, Call.args, hn]
  unfold factorialBody
  simp only [CStmt.exec, h0, ne_eq, not_true_eq_false, if_false, Option.isSome_none,
    Bool.false_eq_true]
  rfl

theorem run_factorial (fuel : Nat) (w : World) (n : Int) :
    Call.run fuel (Call.factorial n) w = (factorial fuel n).map (fun v => (v, w)) := by
  unfold factorial
  by_cases hn : n < 0
  · rw [if_pos hn]
    simp [Call.run, callBody, Call.body, Call.args, factorialBody, CStmt.exec, CExpr.eval, hn]
  · rw [if_neg hn]
    have key := execLoop_factorialBody fuel fuel
      (fun y => if y = Var.i then 2 else if y = Var.result then 1
        else (Call.factorial n).args y) w
    have hl : factorialLoop fuel n 2 1 = factorialLoop fuel
        ((fun y => if y = Var.i then 2 else if y = Var.result then 1
          else (Call.factorial n).args y) Var.n)
        ((fun y => if y = Var.i then (2 : Int) else if y = Var.result then 1
          else (Call.factorial n).args y) Var.i)
        ((fun y => if y = Var.i then (2 : Int) else if y = Var.result then 1
          else (Call.factorial n).args y) Var.result) := rfl
    rw [← hl] at key
    unfold Call.run callBody Call.body
    simp only
    rw [factorialBody_exec_nonneg fuel w n hn]
    cases hloop : execLoop (fun τ => decide (factorialLoopCond.eval τ.locals τ.world ≠ 0))
        (fun τ => factorialLoopBody.exec fuel τ) fuel
        ⟨fun y => if y = Var.i then 2 else if y = Var.result then 1
          else (Call.factorial n).args y, w, none⟩ with
    | none =>
      rw [hloop] at key
      cases hf : factorialLoop fuel n 2 1 with
      | none => rfl
      | some v => rw [hf] at key; simp at key
    | some τ =>
      rw [hloop] at key
      cases hf : factorialLoop fuel n 2 1 with
      | none => rw [hf] at key; simp at key
      | some v =>
        rw [hf] at key
        simp only [Option.map_some', Option.some.injEq, Prod.mk.injEq] at key
        obtain ⟨h1, h2, h3⟩ := key
        simp [h1, h2, h3]


/-- A call of `main` appends the two lines of `main` to standard output and
returns its exit status: the world does change under `puts`. -/
theorem callBody_mainBody (fuel : Nat) (args : Var → Int) (w : World) :
    callBody fuel mainBody args w = some (main.2, ⟨w.globals, w.stdout ++ main.1⟩) := by
  simp [callBody, mainBody, CStmt.exec, CExpr.eval, main, puts]

/-! ## Statements that touch only locals -/

theorem CExpr.eval_isLocal (e : CExpr) (h : e.isLocal = true) (l : Var → Int)
    (w w' : World) : e.eval l w = e.eval l w' := by
  induction e with
  | lit v => rfl
  | var x => rfl
  | glob g => simp [CExpr.isLocal] at h
  | add e₁ e₂ ih₁ ih₂ =>
    simp only [CExpr.isLocal, Bool.and_eq_true] at h
    simp only [CExpr.eval, ih₁ h.1, ih₂ h.2]
  | mul e₁ e₂ ih₁ ih₂ =>
    simp only [CExpr.isLocal, Bool.and_eq_true] at h
    simp only [CExpr.eval, ih₁ h.1, ih₂ h.2]
  | lt e₁ e₂ ih₁ ih₂ =>
    simp only [CExpr.isLocal, Bool.and_eq_true] at h
    simp only [CExpr.eval, ih₁ h.1, ih₂ h.2]
  | le e₁ e₂ ih₁ ih₂ =>
    simp only [CExpr.isLocal, Bool.and_eq_true] at h
    simp only [CExpr.eval, ih₁ h.1, ih₂ h.2]

theorem execLoop_inWorld (cond : Frame → Bool) (body : Frame → Option Frame) (w' : World)
    (hc : ∀ σ, cond (σ.inWorld w') = cond σ)
    (hb : ∀ σ, body (σ.inWorld w') = (body σ).map (Frame.inWorld w')) (fuel : Nat) :
    ∀ σ, execLoop cond body fuel (σ.inWorld w') =
      (execLoop cond body fuel σ).map (Frame.inWorld w') := by
  induction fuel with
  | zero => intro σ; rfl
  | succ f ih =>
    intro σ
    unfold execLoop
    rw [hc, hb]
    by_cases h : cond σ = true
    · simp only [h, if_true]
      cases hbody : body σ with
      | none => rfl
      | some τ =>
        simp only [Option.map_some']
        by_cases hr : τ.ret.isSome = true
        · have hr' : (Frame.inWorld w' τ).ret.isSome = true := hr
          simp only [hr, hr', if_true, Option.map_some']
        · have hr' : ¬ (Frame.inWorld w' τ).ret.isSome = true := hr
          simp only [hr, hr', if_false]
          exact ih τ
    · simp only [h, if_false, Option.map_some', Bool.false_eq_true]

/-- A statement that touches only locals runs the same way in every world and
leaves the world as it found it. -/
theorem CStmt.exec_isLocal (s : CStmt) (h : s.isLocal = true) (fuel : Nat) (w' : World) :
    ∀ σ : Frame, s.exec fuel (σ.inWorld w') = (s.exec fuel σ).map (Frame.inWorld w') := by
  induction s with
  | skip => intro σ; rfl
  | assign x e =>
    intro σ
    simp only [CStmt.isLocal] at h
    simp only [CStmt.exec, Frame.inWorld, Option.map_some',
      CExpr.eval_isLocal e h σ.locals w' σ.world]
  | setGlob g e => simp [CStmt.isLocal] at h
  | puts s => simp [CStmt.isLocal] at h
  | seq s₁ s₂ ih₁ ih₂ =>
    intro σ
    simp only [CStmt.isLocal, Bool.and_eq_true] at h
    simp only [CStmt.exec, ih₁ h.1 σ]
    cases h₁ : s₁.exec fuel σ with
    | none => rfl
    | some τ =>
      simp only [Option.map_some']
      by_cases hr : τ.ret.isSome = true
      · have hr' : (Frame.inWorld w' τ).ret.isSome = true := hr
        simp only [hr, hr', if_true, Option.map_some']
      · have hr' : ¬ (Frame.inWorld w' τ).ret.isSome = true := hr
        simp only [hr, hr', if_false]
        exact ih₂ h.2 τ
  | ite c s₁ s₂ ih₁ ih₂ =>
    intro σ
    simp only [CStmt.isLocal, Bool.and_eq_true] at h
    have hc : c.eval (Frame.inWorld w' σ).locals (Frame.inWorld w' σ).world =
        c.eval σ.locals σ.world := CExpr.eval_isLocal c h.1.1 σ.locals w' σ.world
    simp only [CStmt.exec, hc]
    by_cases h0 : c.eval σ.locals σ.world ≠ 0
    · rw [if_pos h0, if_pos h0]; exact ih₁ h.1.2 σ
    · rw [if_neg h0, if_neg h0]; exact ih₂ h.2 σ
  | loop c body ih =>
    intro σ
    simp only [CStmt.isLocal, Bool.and_eq_true] at h
    simp only [CStmt.exec]
    refine execLoop_inWorld _ _ w' ?_ (ih h.2) fuel σ
    intro τ
    have hc : c.eval (Frame.inWorld w' τ).locals (Frame.inWorld w' τ).world =
        c.eval τ.locals τ.world := CExpr.eval_isLocal c h.1 τ.locals w' τ.world
    simp only [hc]
  | ret e =>
    intro σ
    simp only [CStmt.isLocal] at h
    simp only [CStmt.exec, Frame.inWorld, Option.map_some',
      CExpr.eval_isLocal e h σ.locals w' σ.world]

/-- A call of a body that touches only locals returns, in any world, what it
returns in any other, and hands the world back as it was. -/
theorem callBody_isLocal (body : CStmt) (h : body.isLocal = true) (fuel : Nat)
    (args : Var → Int) (w w' : World) :
    callBody fuel body args w' = (callBody fuel body args w).map (fun p => (p.1, w')) := by
  have key := CStmt.exec_isLocal body h fuel w' ⟨args, w, none⟩
  unfold callBody
  have e : (⟨args, w', none⟩ : Frame) = Frame.inWorld w' ⟨args, w, none⟩ := rfl
  rw [e, key]
  cases body.exec fuel ⟨args, w, none⟩ with
  | none => rfl
  | some τ =>
    obtain ⟨l, wv, r⟩ := τ
    cases r with
    | none => rfl
    | some v => rfl

theorem Call.body_isLocal (c : Call) : c.body.isLocal = true := by
  cases c <;> rfl


/-- A returning call of `add` or `factorial` hands the world back as it was. -/
theorem Call.run_world {fuel : Nat} {c : Call} {w : World} {r : Int × World}
    (h : Call.run fuel c w = some r) : r.2 = w := by
  have key := callBody_isLocal c.body c.body_isLocal fuel c.args w w
  unfold Call.run at h
  rw [h] at key
  simp only [Option.map_some', Option.some.injEq] at key
  rw [key]

/-- Two returning runs of the same call return the same value, whatever the
worlds they are made in and whatever their fuel. -/
theorem Call.run_value {fuel fuel' : Nat} {c : Call} {w w' : World} {r r' : Int × World}
    (h : Call.run fuel c w = some r) (h' : Call.run fuel' c w' = some r') : r.1 = r'.1 := by
  cases c with
  | add a b =>
    rw [run_add] at h h'
    rw [← Option.some.inj h, ← Option.some.inj h']
  | factorial n =>
    rw [run_factorial] at h h'
    cases hf : Hello.factorial fuel n with
    | none => rw [hf] at h; simp at h
    | some v =>
      cases hf' : Hello.factorial fuel' n with
      | none => rw [hf'] at h'; simp at h'
      | some v' =>
        rw [hf] at h
        rw [hf'] at h'
        simp only [Option.map_some', Option.some.injEq] at h h'
        rw [← h, ← h']
        exact factorial_unique hf hf'

theorem runCalls_get (cs : List (Nat × Call)) :
    ∀ (w w' : World) (vs : List Int), runCalls cs w = some (vs, w') →
      w' = w ∧ ∀ (k : Nat) (c : Nat × Call) (v : Int),
        cs.get? k = some c → vs.get? k = some v → Call.run c.1 c.2 w = some (v, w) := by
  induction cs with
  | nil =>
    intro w w' vs h
    simp only [runCalls, Option.some.injEq, Prod.mk.injEq] at h
    refine ⟨h.2.symm, ?_⟩
    intro k c v hc
    simp at hc
  | cons c cs ih =>
    intro w w' vs h
    unfold runCalls at h
    cases hrun : Call.run c.1 c.2 w with
    | none => rw [hrun] at h; simp at h
    | some r =>
      obtain ⟨v, w₁⟩ := r
      have hw₁ : w₁ = w := Call.run_world hrun
      subst hw₁
      rw [hrun] at h
      simp only at h
      cases hrest : runCalls cs w₁ with
      | none => rw [hrest] at h; simp at h
      | some p =>
        obtain ⟨vs', w₂⟩ := p
        rw [hrest] at h
        simp only [Option.some.injEq, Prod.mk.injEq] at h
        obtain ⟨hvs, hw⟩ := h
        obtain ⟨hw₂, hget⟩ := ih w₁ w₂ vs' hrest
        refine ⟨by rw [← hw, hw₂], ?_⟩
        intro k d u hd hu
        subst hvs
        cases k with
        | zero =>
          simp only [List.get?_cons_zero, Option.some.injEq] at hd hu
          subst hd hu
          exact hrun
        | succ k =>
          simp only [List.get?_cons_succ] at hd hu
          exact hget k d u hd hu

/-! ## Determinism -/

/-- C8: `add` and `factorial` are deterministic and have no hidden state: their
bodies read and write nothing but parameters and locals; a call of `add` made
in any world returns `add a b` and a call of `factorial` returns what
`factorial` returns, each handing the world back untouched; two returning
calls with identical arguments return identical values whatever the worlds
they are made in and whatever their fuel; in any sequence of host calls the
world is never changed and two positions holding the same call hold the same
returned value; and for every `n` below `INT_MAX` there is one value that every
call of `factorial n` with fuel above `n` returns, in every world. -/
theorem add_factorial_deterministic :
    (∀ c : Call, c.body.isLocal = true) ∧
    (∀ (fuel : Nat) (w : World) (a b : Int),
      Call.run fuel (Call.add a b) w = some (add a b, w)) ∧
    (∀ (fuel : Nat) (w : World) (n : Int),
      Call.run fuel (Call.factorial n) w = (factorial fuel n).map (fun v => (v, w))) ∧
    (∀ (c : Call) (fuel fuel' : Nat) (w w' : World) (r r' : Int × World),
      Call.run fuel c w = some r → Call.run fuel' c w' = some r' →
        r.1 = r'.1 ∧ r.2 = w ∧ r'.2 = w') ∧
    (∀ (cs : List (Nat × Call)) (w w' : World) (vs : List Int),
      runCalls cs w = some (vs, w') →
        w' = w ∧ ∀ (i j : Nat) (ci cj : Nat × Call) (v v' : Int),
          cs.get? i = some ci → cs.get? j = some cj → ci.2 = cj.2 →
          vs.get? i = some v → vs.get? j = some v' → v = v') ∧
    (∀ n : Int, n < 2147483647 → ∃ v : Int, ∀ (fuel : Nat) (w : World),
      n < (fuel : Int) → Call.run fuel (Call.factorial n) w = some (v, w)) := by
  refine ⟨Call.body_isLocal, run_add, run_factorial, ?_, ?_, ?_⟩
  · intro c fuel fuel' w w' r r' h h'
    exact ⟨Call.run_value h h', Call.run_world h, Call.run_world h'⟩
  · intro cs w w' vs h
    obtain ⟨hw, hget⟩ := runCalls_get cs w w' vs h
    refine ⟨hw, ?_⟩
    intro i j ci cj v v' hi hj hc hv hv'
    have h1 := hget i ci v hi hv
    have h2 := hget j cj v' hj hv'
    rw [hc] at h1
    exact Call.run_value h1 h2
  · intro n hn
    obtain ⟨v, _, hv⟩ := factorial_terminates n hn
    refine ⟨v, fun fuel w hf => ?_⟩
    rw [run_factorial, hv fuel hf]
    rfl

theorem add_factorial_deterministic_witness :
    (Call.run 5 (Call.factorial 5) (World.mk (fun _ => 0) []) =
        some (120, World.mk (fun _ => 0) []) ∧
      Call.run 9 (Call.factorial 5) (World.mk (fun _ => 7) ["x"]) =
        some (120, World.mk (fun _ => 7) ["x"]) ∧
      ((120 : Int), World.mk (fun _ => 0) []).1 =
        ((120 : Int), World.mk (fun _ => 7) ["x"]).1) ∧
    (runCalls [(1, Call.factorial 1), (0, Call.add 2147483647 1), (7, Call.factorial 1)]
        (World.mk (fun _ => 7) ["x"]) =
        some ([1, -2147483648, 1], World.mk (fun _ => 7) ["x"]) ∧
      ∀ (i j : Nat) (ci cj : Nat × Call) (v v' : Int),
        [(1, Call.factorial 1), (0, Call.add 2147483647 1), (7, Call.factorial 1)].get? i =
          some ci →
        [(1, Call.factorial 1), (0, Call.add 2147483647 1), (7, Call.factorial 1)].get? j =
          some cj →
        ci.2 = cj.2 → [(1 : Int), -2147483648, 1].get? i = some v →
        [(1 : Int), -2147483648, 1].get? j = some v' → v = v') ∧
    (∃ v : Int, ∀ (fuel : Nat) (w : World),
      (13 : Int) < (fuel : Int) → Call.run fuel (Call.factorial 13) w = some (v, w)) :=
  ⟨⟨by rfl, by rfl,
      (add_factorial_deterministic.2.2.2.1 (Call.factorial 5) 5 9
        (World.mk (fun _ => 0) []) (World.mk (fun _ => 7) ["x"])
        (120, World.mk (fun _ => 0) []) (120, World.mk (fun _ => 7) ["x"]) (by rfl) (by rfl)).1⟩,
    ⟨by rfl,
      (add_factorial_deterministic.2.2.2.2.1
        [(1, Call.factorial 1), (0, Call.add 2147483647 1), (7, Call.factorial 1)]
        (World.mk (fun _ => 7) ["x"]) (World.mk (fun _ => 7) ["x"])
        [1, -2147483648, 1] (by rfl)).2⟩,
    add_factorial_deterministic.2.2.2.2.2 13 (by decide)⟩

end Hello
